import Mathlib

/-!
Verification of the FileCompressionTool codecs (src/algorithms.py) and the
container parser (src/compressor.py) against their specification.

Byte strings are embedded as `List Nat` (Python `bytes`: each element is in
0..255; where a property needs that bound it appears as a hypothesis).
Python bit strings (strings of the characters '0' and '1') are embedded as
`List Char`.  `pickle.dumps`/`pickle.loads` are mutually inverse and are
used by the source only to ship a value through a byte channel, so a
compress/decompress pair that pickles on one side and unpickles on the
other is embedded by passing the value itself.
-/

namespace FileCompression

/-! ## RLE codec (src/algorithms.py, class RLE) -/

/-- Loop body of `RLE.compress`: `data[1:]` is scanned holding
`(count, current)`, flushing `[count, current]` pairs into `acc`
(the `compressed` bytearray). -/
def rleLoop : List Nat → Nat → Nat → List Nat → List Nat
  | [], count, current, acc => acc ++ [count, current]
  | b :: rest, count, current, acc =>
    if b = current ∧ count < 255 then rleLoop rest (count + 1) current acc
    else rleLoop rest 1 b (acc ++ [count, current])

/-- `RLE.compress` (src/algorithms.py lines 21-38). -/
def rleCompress : List Nat → List Nat
  | [] => []
  | d :: rest => rleLoop rest 1 d []

/-- Loop of `RLE.decompress`: pairs `(count, value)` are expanded; a lone
trailing byte fails the `i + 1 < len` guard and is skipped. -/
def rleDecLoop : List Nat → List Nat
  | count :: value :: rest => List.replicate count value ++ rleDecLoop rest
  | _ => []

/-- `RLE.decompress` (src/algorithms.py lines 40-51). -/
def rleDecompress (compressedData : List Nat) : List Nat :=
  if compressedData = [] then [] else rleDecLoop compressedData

end FileCompression

namespace FileCompression

lemma rleLoop_acc (rest : List Nat) : ∀ count current acc,
    rleLoop rest count current acc = acc ++ rleLoop rest count current [] := by
  induction rest with
  | nil => intro count current acc; simp [rleLoop]
  | cons b rest ih =>
    intro count current acc
    by_cases h : b = current ∧ count < 255
    · simp only [rleLoop, if_pos h]; exact ih _ _ _
    · simp only [rleLoop, if_neg h, List.nil_append]
      rw [ih 1 b (acc ++ [count, current]), ih 1 b [count, current]]
      simp

lemma rleDecLoop_rleLoop (rest : List Nat) : ∀ count current,
    rleDecLoop (rleLoop rest count current []) =
      List.replicate count current ++ rest := by
  induction rest with
  | nil => intro count current; simp [rleLoop, rleDecLoop]
  | cons b rest ih =>
    intro count current
    by_cases h : b = current ∧ count < 255
    · simp only [rleLoop, if_pos h, ih]
      rcases h with ⟨rfl, -⟩
      rw [List.replicate_succ' ]
      simp
    · simp only [rleLoop, if_neg h, List.nil_append]
      rw [rleLoop_acc]
      show rleDecLoop (count :: current :: rleLoop rest 1 b []) = _
      simp only [rleDecLoop]
      rw [ih 1 b]
      simp [List.replicate]

lemma rleDecompress_eq_loop (l : List Nat) : rleDecompress l = rleDecLoop l := by
  by_cases h : l = []
  · subst h; rfl
  · simp [rleDecompress, h]

/-- C3: for every finite byte sequence `s`,
`RLE.decompress (RLE.compress s) = s`. -/
theorem rle_roundtrip (s : List Nat) : rleDecompress (rleCompress s) = s := by
  cases s with
  | nil => rfl
  | cons d rest =>
    rw [rleDecompress_eq_loop]
    show rleDecLoop (rleLoop rest 1 d []) = d :: rest
    rw [rleDecLoop_rleLoop]
    simp [List.replicate]

/-- C4, counterexample: `RLE.decompress` does not fail on the odd-length
input `[2, 65, 66]`; it returns a normal result, silently dropping the
trailing byte `66`. -/
theorem rle_decompress_odd_no_error : rleDecompress [2, 65, 66] = [65, 65] := by
  decide

lemma rleDecLoop_odd_dropLast :
    ∀ l : List Nat, l.length % 2 = 1 → rleDecLoop l = rleDecLoop l.dropLast
  | [], h => by simp at h
  | [_], _ => by simp [rleDecLoop]
  | a :: b :: rest, h => by
    have hrest : rest.length % 2 = 1 := by
      simp only [List.length_cons] at h; omega
    cases rest with
    | nil => simp at hrest
    | cons x xs =>
      simp only [rleDecLoop, List.dropLast_cons₂]
      rw [rleDecLoop_odd_dropLast (x :: xs) hrest]

/-- C4, amended: `RLE.decompress` of an odd-length input does not raise an
error; it decodes as if the lone trailing byte were absent. -/
theorem rle_decompress_odd_drops_trailing (l : List Nat)
    (h : l.length % 2 = 1) : rleDecompress l = rleDecompress l.dropLast := by
  rw [rleDecompress_eq_loop, rleDecompress_eq_loop]
  exact rleDecLoop_odd_dropLast l h

/-- Witness for `rle_decompress_odd_drops_trailing` at `[2, 65, 67]`. -/
theorem rle_decompress_odd_drops_trailing_witness :
    [2, 65, 67].length % 2 = 1 ∧
      rleDecompress [2, 65, 67] = rleDecompress [2, 65, 67].dropLast :=
  ⟨by decide, rle_decompress_odd_drops_trailing [2, 65, 67] (by decide)⟩

lemma rleLoop_length_le (rest : List Nat) : ∀ count current,
    (rleLoop rest count current []).length ≤ 2 + 2 * rest.length := by
  induction rest with
  | nil => intro count current; simp [rleLoop]
  | cons b rest ih =>
    intro count current
    by_cases h : b = current ∧ count < 255
    · simp only [rleLoop, if_pos h]
      calc (rleLoop rest (count + 1) current []).length
          ≤ 2 + 2 * rest.length := ih _ _
        _ ≤ 2 + 2 * (b :: rest).length := by
            simp only [List.length_cons]; omega
    · simp only [rleLoop, if_neg h, List.nil_append]
      rw [rleLoop_acc]
      have := ih 1 b
      simp only [List.length_append, List.length_cons]
      simp at this ⊢
      omega

lemma rleLoop_length_chain (rest : List Nat) : ∀ count current,
    List.Chain' (· ≠ ·) (current :: rest) →
    (rleLoop rest count current []).length = 2 + 2 * rest.length := by
  induction rest with
  | nil => intro count current _; simp [rleLoop]
  | cons b rest ih =>
    intro count current hchain
    rw [List.chain'_cons] at hchain
    have hne : ¬(b = current ∧ count < 255) := by
      intro hcontra; exact hchain.1 hcontra.1.symm
    simp only [rleLoop, if_neg hne, List.nil_append]
    rw [rleLoop_acc]
    have := ih 1 b hchain.2
    simp only [List.length_append, List.length_cons]
    simp at this ⊢
    omega

/-- C8: `(RLE.compress s).length ≤ 2 * s.length`, with equality whenever no
two adjacent bytes of `s` are equal. -/
theorem rle_compress_length (s : List Nat) :
    (rleCompress s).length ≤ 2 * s.length ∧
      (List.Chain' (· ≠ ·) s → (rleCompress s).length = 2 * s.length) := by
  cases s with
  | nil => simp [rleCompress]
  | cons d rest =>
    constructor
    · show (rleLoop rest 1 d []).length ≤ 2 * (d :: rest).length
      have := rleLoop_length_le rest 1 d
      simp only [List.length_cons]
      omega
    · intro hchain
      show (rleLoop rest 1 d []).length = 2 * (d :: rest).length
      have := rleLoop_length_chain rest 1 d hchain
      simp only [List.length_cons]
      omega

/-- Witness for `rle_compress_length` at `[7, 8, 9]`, discharging the
adjacent-bytes hypothesis there. -/
theorem rle_compress_length_witness :
    (rleCompress [7, 8, 9]).length ≤ 2 * ([7, 8, 9] : List Nat).length ∧
      List.Chain' (· ≠ ·) [7, 8, 9] ∧
      (rleCompress [7, 8, 9]).length = 2 * ([7, 8, 9] : List Nat).length :=
  ⟨(rle_compress_length [7, 8, 9]).1, by norm_num [List.chain'_cons],
    (rle_compress_length [7, 8, 9]).2 (by norm_num [List.chain'_cons])⟩

/-! ## Container parsing (src/compressor.py, Compressor.decompress_file)

The header-parsing part of `decompress_file` (lines 80-99) is embedded over
an in-memory byte buffer.  A Python `f.read(n)` at position `pos` returns
the next `min(n, remaining)` bytes and advances by that many, so it is
embedded as `readBytes`; `struct.unpack('B', b)` raises `struct.error`
unless `b` has exactly one byte.  The `.decode('utf-8')` calls are not
modelled (the claims under verification concern lengths and truncation, so
theorems restrict the name/extension bytes to ASCII, on which `decode`
is total), and the name and extension are returned as byte lists. -/

/-- The errors `decompress_file` can raise while reading the header:
`ValueError` for a bad magic, `ValueError` for a bad version, and
`struct.error` when a one-byte field is missing from the buffer. -/
inductive ParseError where
  | badMagic
  | unsupportedVersion (v : Nat)
  | structError
deriving DecidableEq, Repr

/-- `f.read(n)` on a buffer at position `pos`. -/
def readBytes (buf : List Nat) (pos n : Nat) : List Nat :=
  (buf.drop pos).take n

/-- The `CMPR` magic bytes (src/compressor.py line 8). -/
def magicBytes : List Nat := [67, 77, 80, 82]

/-- Header parsing of `Compressor.decompress_file` (src/compressor.py
lines 80-99): returns `(algorithm_name, ext, compressed_data)`. -/
def parseContainer (buf : List Nat) :
    Except ParseError (List Nat × List Nat × List Nat) :=
  let magic := readBytes buf 0 4
  if magic ≠ magicBytes then .error .badMagic
  else
    let vbytes := readBytes buf 4 1
    if vbytes.length ≠ 1 then .error .structError
    else
      let version := vbytes.headD 0
      if version ≠ 1 then .error (.unsupportedVersion version)
      else
        let albytes := readBytes buf 5 1
        if albytes.length ≠ 1 then .error .structError
        else
          let algoLen := albytes.headD 0
          let algoName := readBytes buf 6 algoLen
          let elbytes := readBytes buf (6 + algoName.length) 1
          if elbytes.length ≠ 1 then .error .structError
          else
            let extLen := elbytes.headD 0
            let ext := readBytes buf (7 + algoName.length) extLen
            let payload := buf.drop (7 + algoName.length + ext.length)
            .ok (algoName, ext, payload)

/-- C5, counterexample: this buffer declares a 5-byte extension but only 3
bytes remain (`".tx"`); parsing succeeds with the truncated extension and
an empty payload instead of failing with a truncation error. -/
theorem parse_truncated_ext_no_error :
    parseContainer [67, 77, 80, 82, 1, 3, 108, 122, 119, 5, 46, 116, 120] =
      .ok ([108, 122, 119], [46, 116, 120], []) := by
  rfl

/-- C5, amended: when the declared extension length `e` exceeds the bytes
remaining in the buffer, parsing does not fail: the read returns the bytes
that are present and the payload is empty.  (The byte bounds keep the
buffer inside the range where Python's `.decode('utf-8')` is total, so the
embedding matches the source.) -/
theorem parse_truncated_ext_succeeds
    (n e : Nat) (name extBytes : List Nat)
    (hn : name.length = n) (he : extBytes.length < e)
    (_hname : ∀ b ∈ name, b < 128) (_hext : ∀ b ∈ extBytes, b < 128) :
    parseContainer ([67, 77, 80, 82] ++ [1] ++ [n] ++ name ++ [e] ++ extBytes)
      = .ok (name, extBytes, []) := by
  set buf := [67, 77, 80, 82] ++ [1] ++ [n] ++ name ++ [e] ++ extBytes
    with hbufdef
  have hb1 : buf = [67, 77, 80, 82, 1, n] ++ (name ++ ([e] ++ extBytes)) := by
    simp [hbufdef]
  have hb2 : buf = ([67, 77, 80, 82, 1, n] ++ name) ++ ([e] ++ extBytes) := by
    simp [hbufdef]
  have hb3 : buf = (([67, 77, 80, 82, 1, n] ++ name) ++ [e]) ++ extBytes := by
    simp [hbufdef]
  have hmagic : readBytes buf 0 4 = magicBytes := by
    rw [hb1]; simp [readBytes, magicBytes]
  have hver : readBytes buf 4 1 = [1] := by
    rw [hb1]; simp [readBytes]
  have halen : readBytes buf 5 1 = [n] := by
    rw [hb1]; simp [readBytes]
  have hname6 : readBytes buf 6 n = name := by
    rw [hb1]
    show (([67, 77, 80, 82, 1, n] ++
      (name ++ ([e] ++ extBytes))).drop 6).take n = name
    rw [@List.drop_left' _ [67, 77, 80, 82, 1, n] (name ++ ([e] ++ extBytes)) 6 (by simp)]
    exact List.take_left' hn
  have helen : readBytes buf (6 + name.length) 1 = [e] := by
    rw [hb2]
    show ((([67, 77, 80, 82, 1, n] ++ name) ++
      ([e] ++ extBytes)).drop (6 + name.length)).take 1 = [e]
    rw [@List.drop_left' _ ([67, 77, 80, 82, 1, n] ++ name) ([e] ++ extBytes)
      (6 + name.length) (by simp; omega)]
    simp
  have hext7 : readBytes buf (7 + name.length) e = extBytes := by
    rw [hb3]
    show (((([67, 77, 80, 82, 1, n] ++ name) ++ [e]) ++
      extBytes).drop (7 + name.length)).take e = extBytes
    rw [@List.drop_left' _ (([67, 77, 80, 82, 1, n] ++ name) ++ [e]) extBytes
      (7 + name.length) (by simp; omega)]
    exact List.take_of_length_le (Nat.le_of_lt he)
  have hpay : buf.drop (7 + name.length + extBytes.length) = [] := by
    apply List.drop_eq_nil_of_le
    rw [hbufdef]
    simp
    omega
  simp [parseContainer, hmagic, hver, halen, hname6, helen, hext7, hpay]

/-- Witness for `parse_truncated_ext_succeeds`: codec name `"rle"`, declared
extension length 4, only one extension byte present. -/
theorem parse_truncated_ext_succeeds_witness :
    ([114, 108, 101] : List Nat).length = 3 ∧ ([46] : List Nat).length < 4 ∧
      parseContainer ([67, 77, 80, 82] ++ [1] ++ [3] ++ [114, 108, 101] ++
        [4] ++ [46]) = .ok ([114, 108, 101], [46], []) :=
  ⟨by decide, by decide,
    parse_truncated_ext_succeeds 3 4 [114, 108, 101] [46] (by decide)
      (by decide) (by decide) (by decide)⟩

/-! ## LZW codec (src/algorithms.py, class LZW)

Python `dict`s are embedded as association lists with `alookup` (first
match).  The source only ever inserts a key after `k in dictionary` has
just returned false (encoder) or at the fresh integer key `dict_size`
(decoder), so insertion is a plain append and never shadows an existing
key; `alookup` then agrees with Python dict lookup.  The pickled code
list is passed as the value itself. -/

/-- Association-list lookup, the embedding of Python dict indexing. -/
def alookup {α β : Type} [DecidableEq α] : List (α × β) → α → Option β
  | [], _ => none
  | (k, v) :: rest, a => if k = a then some v else alookup rest a

/-- State of the `LZW.compress` loop (src/algorithms.py lines 189-213):
`dictionary`, `dict_size`, `result` and the pending string `w`. -/
structure EncSt where
  dict : List (List Nat × Nat)
  dictSize : Nat
  result : List Nat
  w : List Nat
deriving Repr, DecidableEq

/-- The encoder's initial dictionary `{bytes([i]): i for i in range(256)}`. -/
def lzwEncDict0 : List (List Nat × Nat) :=
  (List.range 256).map (fun i => ([i], i))

/-- One iteration of the `for c in data[1:]` loop of `LZW.compress`.
`dictionary[w]` cannot fail there (`w` is always a key; proved below as
`SimInv.senc_wmem`), so the `.getD 0` default is never used. -/
def encStep (st : EncSt) (c : Nat) : EncSt :=
  let wc := st.w ++ [c]
  if (alookup st.dict wc).isSome then
    { st with w := wc }
  else
    { dict := st.dict ++ [(wc, st.dictSize)]
      dictSize := st.dictSize + 1
      result := st.result ++ [(alookup st.dict st.w).getD 0]
      w := [c] }

/-- The `for c in data[1:]` loop of `LZW.compress`. -/
def encLoop (st : EncSt) : List Nat → EncSt
  | [] => st
  | c :: rest => encLoop (encStep st c) rest

/-- `LZW.compress` (src/algorithms.py lines 189-213), returning the code
list that the source pickles. -/
def lzwCompress (data : List Nat) : List Nat :=
  match data with
  | [] => []
  | d :: rest =>
    let st := encLoop ⟨lzwEncDict0, 256, [], [d]⟩ rest
    if st.w ≠ [] then st.result ++ [(alookup st.dict st.w).getD 0]
    else st.result

/-- State of the `LZW.decompress` loop (src/algorithms.py lines 215-243). -/
structure DecSt where
  dict : List (Nat × List Nat)
  dictSize : Nat
  result : List Nat
  w : List Nat
deriving Repr, DecidableEq

/-- The decoder's initial dictionary `{i: bytes([i]) for i in range(256)}`. -/
def lzwDecDict0 : List (Nat × List Nat) :=
  (List.range 256).map (fun i => (i, [i]))

/-- One iteration of the `for k in compressed[1:]` loop of
`LZW.decompress`: known code, the `k == dict_size` self-reference rule, or
the `ValueError("Bad compressed k")` branch.  `w` and `entry` are never
empty where their heads are taken (dictionary values are nonempty), so
`.headD 0` stands for Python's `w[0]` / `entry[0]`. -/
def decStep (st : DecSt) (k : Nat) : Except String DecSt :=
  let entryO : Option (List Nat) :=
    match alookup st.dict k with
    | some en => some en
    | none => if k = st.dictSize then some (st.w ++ [st.w.headD 0]) else none
  match entryO with
  | none => .error "Bad compressed k"
  | some entry =>
    .ok { dict := st.dict ++ [(st.dictSize, st.w ++ [entry.headD 0])]
          dictSize := st.dictSize + 1
          result := st.result ++ entry
          w := entry }

/-- The `for k in compressed[1:]` loop of `LZW.decompress`; a raised
`ValueError` short-circuits. -/
def decLoop (st : DecSt) : List Nat → Except String DecSt
  | [] => .ok st
  | k :: rest =>
    match decStep st k with
    | .error e => .error e
    | .ok st2 => decLoop st2 rest

/-- `LZW.decompress` after the empty check: resolve the first code against
the fresh dictionary (Python raises `KeyError` when it is missing) and run
the loop. -/
def decRun (c0 : Nat) (cs : List Nat) : Except String DecSt :=
  match alookup lzwDecDict0 c0 with
  | none => .error "KeyError"
  | some w0 => decLoop ⟨lzwDecDict0, 256, w0, w0⟩ cs

/-- `LZW.decompress` (src/algorithms.py lines 215-243). -/
def lzwDecompress : List Nat → Except String (List Nat)
  | [] => .ok []
  | c0 :: cs => (decRun c0 cs).map (fun st => st.result)

/-- The decoder's state after processing the first `k` codes of a stream
(the first code counts as one processed code). -/
def lzwStateAfter (codes : List Nat) (k : Nat) : Except String DecSt :=
  match codes with
  | [] => .error "no codes"
  | c0 :: cs =>
    if k = 0 then .error "no codes"
    else decRun c0 (cs.take (k - 1))

/-! ### Association-list facts -/

section Alookup

variable {α β : Type} [DecidableEq α]

lemma alookup_eq_none_iff (l : List (α × β)) (a : α) :
    alookup l a = none ↔ a ∉ l.map Prod.fst := by
  induction l with
  | nil => simp [alookup]
  | cons p rest ih =>
    obtain ⟨k, v⟩ := p
    by_cases h : k = a
    · subst h; simp [alookup]
    · simp [alookup, h, ih, Ne.symm h]

lemma alookup_isSome_iff (l : List (α × β)) (a : α) :
    (alookup l a).isSome ↔ a ∈ l.map Prod.fst := by
  constructor
  · intro hs
    by_contra hmem
    rw [← alookup_eq_none_iff] at hmem
    rw [hmem] at hs
    simp at hs
  · intro hmem
    cases h : alookup l a with
    | some v => simp
    | none => rw [alookup_eq_none_iff] at h; exact absurd hmem h

lemma alookup_mem {l : List (α × β)} {a : α} {v : β}
    (h : alookup l a = some v) : (a, v) ∈ l := by
  induction l with
  | nil => simp [alookup] at h
  | cons p rest ih =>
    obtain ⟨k, w⟩ := p
    by_cases hk : k = a
    · subst hk
      simp [alookup] at h
      subst h
      exact List.mem_cons_self _ _
    · simp only [alookup, if_neg hk] at h
      exact List.mem_cons_of_mem _ (ih h)

lemma mem_alookup_of_nodup {l : List (α × β)} {a : α} {v : β}
    (hnd : (l.map Prod.fst).Nodup) (hm : (a, v) ∈ l) :
    alookup l a = some v := by
  induction l with
  | nil => simp at hm
  | cons p rest ih =>
    obtain ⟨k, w⟩ := p
    simp only [List.map_cons, List.nodup_cons] at hnd
    rcases List.mem_cons.mp hm with heq | hmem
    · injection heq with h1 h2
      subst h1; subst h2
      simp [alookup]
    · have hka : k ≠ a := by
        intro hk; subst hk
        exact hnd.1 (List.mem_map_of_mem Prod.fst hmem)
      simp only [alookup, if_neg hka]
      exact ih hnd.2 hmem

lemma alookup_append_left {l1 l2 : List (α × β)} {a : α} {v : β}
    (h : alookup l1 a = some v) : alookup (l1 ++ l2) a = some v := by
  induction l1 with
  | nil => simp [alookup] at h
  | cons p rest ih =>
    obtain ⟨k, w⟩ := p
    by_cases hk : k = a
    · subst hk
      simp only [alookup, if_pos rfl] at h ⊢
      exact h
    · simp only [List.cons_append, alookup, if_neg hk] at h ⊢
      exact ih h

lemma alookup_append_right {l1 l2 : List (α × β)} {a : α}
    (h : alookup l1 a = none) : alookup (l1 ++ l2) a = alookup l2 a := by
  induction l1 with
  | nil => simp
  | cons p rest ih =>
    obtain ⟨k, w⟩ := p
    by_cases hk : k = a
    · subst hk; simp [alookup] at h
    · simp only [alookup, if_neg hk] at h
      simp only [List.cons_append, alookup, if_neg hk]
      exact ih h

lemma alookup_isSome_of_mem {l : List (α × β)} {a : α} {v : β}
    (hm : (a, v) ∈ l) : (alookup l a).isSome :=
  (alookup_isSome_iff l a).mpr (List.mem_map_of_mem Prod.fst hm)

end Alookup

/-! ### Lists whose image under a projection is `range` -/

lemma map_eq_range_get {β : Type} (f : β → Nat) (l : List β)
    (h : l.map f = List.range l.length) (i : Nat) (hi : i < l.length) :
    f (l.get ⟨i, hi⟩) = i := by
  have hlen : i < (l.map f).length := by simpa using hi
  have h1 : (l.map f).get ⟨i, hlen⟩ = f (l.get ⟨i, hi⟩) := by
    simp
  have h2 : (l.map f).get ⟨i, hlen⟩ =
      (List.range l.length).get ⟨i, by simpa using hi⟩ :=
    List.get_of_eq h _
  rw [h1] at h2
  simpa using h2

lemma mem_map_eq_range_get {β : Type} (f : β → Nat) (l : List β)
    (h : l.map f = List.range l.length) {p : β} (hp : p ∈ l) :
    ∃ hi : f p < l.length, l.get ⟨f p, hi⟩ = p := by
  obtain ⟨⟨i, hi⟩, hget⟩ := List.mem_iff_get.mp hp
  have hfp : f p = i := by rw [← hget]; exact map_eq_range_get f l h i hi
  subst hget
  rw [hfp]
  exact ⟨hi, rfl⟩

lemma alookup_of_fst_range {l : List (Nat × List Nat)}
    (h : l.map Prod.fst = List.range l.length) {k : Nat} (hk : k < l.length) :
    alookup l k = some (l.get ⟨k, hk⟩).2 := by
  apply mem_alookup_of_nodup
  · rw [h]; exact List.nodup_range _
  · have hfst : (l.get ⟨k, hk⟩).1 = k := map_eq_range_get Prod.fst l h k hk
    have hmem : l.get ⟨k, hk⟩ ∈ l := l.get_mem k hk
    have h2 : ((l.get ⟨k, hk⟩).1, (l.get ⟨k, hk⟩).2) ∈ l := by
      simp
    rw [hfst] at h2
    exact h2

lemma alookup_none_of_fst_range {l : List (Nat × List Nat)}
    (h : l.map Prod.fst = List.range l.length) {k : Nat} (hk : l.length ≤ k) :
    alookup l k = none := by
  rw [alookup_eq_none_iff, h]
  simp
  omega

/-! ### Initial-dictionary facts -/

lemma lzwDecDict0_fst : lzwDecDict0.map Prod.fst = List.range 256 := by
  unfold lzwDecDict0
  rw [List.map_map]
  exact List.map_id' _

lemma lzwDecDict0_length : lzwDecDict0.length = 256 := by
  simp [lzwDecDict0]

lemma alookup_lzwDecDict0 {b : Nat} (hb : b < 256) :
    alookup lzwDecDict0 b = some [b] := by
  apply mem_alookup_of_nodup
  · rw [lzwDecDict0_fst]; exact List.nodup_range _
  · simp only [lzwDecDict0, List.mem_map]
    exact ⟨b, by simp [hb]⟩

lemma lzwEncDict0_fst : lzwEncDict0.map Prod.fst =
    (List.range 256).map (fun i => [i]) := by
  simp [lzwEncDict0, List.map_map, Function.comp]

lemma lzwEncDict0_snd : lzwEncDict0.map Prod.snd = List.range 256 := by
  unfold lzwEncDict0
  rw [List.map_map]
  exact List.map_id' _

lemma lzwEncDict0_length : lzwEncDict0.length = 256 := by
  simp [lzwEncDict0]

lemma lzwEncDict0_fst_nodup : (lzwEncDict0.map Prod.fst).Nodup := by
  rw [lzwEncDict0_fst]
  exact List.Nodup.map (fun a b h => by injection h) (List.nodup_range _)

lemma mem_lzwEncDict0 {p : List Nat × Nat} (hp : p ∈ lzwEncDict0) :
    p.2 < 256 ∧ p.1 = [p.2] := by
  simp only [lzwEncDict0, List.mem_map, List.mem_range] at hp
  obtain ⟨i, hi, rfl⟩ := hp
  exact ⟨hi, rfl⟩

lemma alookup_lzwEncDict0 {b : Nat} (hb : b < 256) :
    alookup lzwEncDict0 [b] = some b := by
  apply mem_alookup_of_nodup lzwEncDict0_fst_nodup
  simp only [lzwEncDict0, List.mem_map]
  exact ⟨b, by simp [hb]⟩

/-! ### Decoder-loop invariants -/

lemma decStep_ok_shape {st : DecSt} {k : Nat} {st' : DecSt}
    (hs : decStep st k = .ok st') :
    ∃ entry, st' = ⟨st.dict ++ [(st.dictSize, st.w ++ [entry.headD 0])],
      st.dictSize + 1, st.result ++ entry, entry⟩ := by
  unfold decStep at hs
  cases halk : alookup st.dict k with
  | some en =>
    refine ⟨en, ?_⟩
    simp only [halk] at hs
    exact (Except.ok.injEq .. ▸ hs).symm
  | none =>
    simp only [halk] at hs
    by_cases hk : k = st.dictSize
    · refine ⟨st.w ++ [st.w.headD 0], ?_⟩
      simp only [if_pos hk] at hs
      exact (Except.ok.injEq .. ▸ hs).symm
    · simp [if_neg hk] at hs

lemma decStep_fst_range {st st' : DecSt} {k : Nat}
    (h : st.dict.map Prod.fst = List.range st.dictSize)
    (hs : decStep st k = .ok st') :
    st'.dict.map Prod.fst = List.range st'.dictSize ∧
      st'.dictSize = st.dictSize + 1 := by
  obtain ⟨entry, rfl⟩ := decStep_ok_shape hs
  constructor
  · simp only [List.map_append, h, List.map_cons, List.map_nil]
    rw [List.range_succ]
  · rfl

lemma decLoop_fst_range : ∀ (l : List Nat) (st st' : DecSt),
    st.dict.map Prod.fst = List.range st.dictSize →
    decLoop st l = .ok st' →
    st'.dict.map Prod.fst = List.range st'.dictSize ∧
      st'.dictSize = st.dictSize + l.length := by
  intro l
  induction l with
  | nil =>
    intro st st' h hs
    simp only [decLoop] at hs
    injection hs with hs
    subst hs
    exact ⟨h, by simp⟩
  | cons k rest ih =>
    intro st st' h hs
    simp only [decLoop] at hs
    cases hstep : decStep st k with
    | error e => rw [hstep] at hs; exact absurd hs (by simp)
    | ok st2 =>
      rw [hstep] at hs
      obtain ⟨h2, hsize2⟩ := decStep_fst_range h hstep
      obtain ⟨h3, hsize3⟩ := ih st2 st' h2 hs
      exact ⟨h3, by rw [hsize3, hsize2]; simp [List.length_cons]; omega⟩

lemma dict_length_of_fst_range {st : DecSt}
    (h : st.dict.map Prod.fst = List.range st.dictSize) :
    st.dict.length = st.dictSize := by
  have := congrArg List.length h
  simpa using this

lemma decLoop_append (l1 : List Nat) : ∀ (st : DecSt) (l2 : List Nat),
    decLoop st (l1 ++ l2) =
      match decLoop st l1 with
      | .error e => .error e
      | .ok st1 => decLoop st1 l2 := by
  induction l1 with
  | nil => intro st l2; simp [decLoop]
  | cons k rest ih =>
    intro st l2
    simp only [List.cons_append, decLoop]
    cases hstep : decStep st k with
    | error e => simp
    | ok st2 => exact ih st2 l2

lemma decLoop_take_ok {l : List Nat} {st st' : DecSt}
    (h : decLoop st l = .ok st') (j : Nat) :
    ∃ st2, decLoop st (l.take j) = .ok st2 := by
  have hsplit : l = l.take j ++ l.drop j := (List.take_append_drop j l).symm
  rw [hsplit, decLoop_append] at h
  cases htake : decLoop st (l.take j) with
  | error e => rw [htake] at h; exact absurd h (by simp)
  | ok st2 => exact ⟨st2, rfl⟩

/-- C7: if `LZW.decompress` accepts a code stream, then after processing
its first `k` codes (`1 ≤ k ≤` stream length) the dictionary holds exactly
`256 + (k - 1)` entries — its keys are precisely `0, …, 256 + (k - 1) - 1`
— and the decoder state reached is a function of those first `k` codes
alone. -/
theorem lzw_decoder_dict_invariant (codes out : List Nat) (k : Nat)
    (hacc : lzwDecompress codes = .ok out) (hk1 : 1 ≤ k)
    (hk2 : k ≤ codes.length) :
    ∃ st, lzwStateAfter codes k = .ok st ∧
      st.dict.length = 256 + (k - 1) ∧
      st.dict.map Prod.fst = List.range (256 + (k - 1)) ∧
      lzwStateAfter (codes.take k) k = lzwStateAfter codes k := by
  cases codes with
  | nil => simp at hk2; omega
  | cons c0 cs =>
    have hk0 : k ≠ 0 := by omega
    simp only [lzwDecompress] at hacc
    cases hrun : decRun c0 cs with
    | error e => rw [hrun] at hacc; exact absurd hacc (by simp [Except.map])
    | ok stfull =>
      unfold decRun at hrun
      cases hw0 : alookup lzwDecDict0 c0 with
      | none => rw [hw0] at hrun; exact absurd hrun (by simp)
      | some w0 =>
        rw [hw0] at hrun
        obtain ⟨st, hst⟩ := decLoop_take_ok hrun (k - 1)
        have hinit : (⟨lzwDecDict0, 256, w0, w0⟩ : DecSt).dict.map Prod.fst
            = List.range (⟨lzwDecDict0, 256, w0, w0⟩ : DecSt).dictSize := by
          simpa using lzwDecDict0_fst
        obtain ⟨hfst, hsize⟩ := decLoop_fst_range _ _ _ hinit hst
        have htklen : (cs.take (k - 1)).length = k - 1 := by
          rw [List.length_take]
          simp only [List.length_cons] at hk2
          omega
        have hsize' : st.dictSize = 256 + (k - 1) := by
          rw [hsize, htklen]
        refine ⟨st, ?_, ?_, ?_, ?_⟩
        · simp only [lzwStateAfter, if_neg hk0]
          unfold decRun
          rw [hw0]
          exact hst
        · rw [dict_length_of_fst_range hfst, hsize']
        · rw [← hsize']; exact hfst
        · have htake : (c0 :: cs).take k = c0 :: cs.take (k - 1) := by
            cases k with
            | zero => omega
            | succ k' => simp [List.take_succ_cons]
          rw [htake]
          simp only [lzwStateAfter, if_neg hk0]
          rw [List.take_take, Nat.min_self]

set_option maxRecDepth 8192 in
/-- Witness for `lzw_decoder_dict_invariant` at the accepted stream
`[84, 79, 66, 256]` with `k = 3`. -/
theorem lzw_decoder_dict_invariant_witness :
    lzwDecompress [84, 79, 66, 256] = .ok [84, 79, 66, 84, 79] ∧
      (1 : Nat) ≤ 3 ∧ (3 : Nat) ≤ [84, 79, 66, 256].length ∧
      ∃ st, lzwStateAfter [84, 79, 66, 256] 3 = .ok st ∧
        st.dict.length = 256 + (3 - 1) ∧
        st.dict.map Prod.fst = List.range (256 + (3 - 1)) ∧
        lzwStateAfter ([84, 79, 66, 256].take 3) 3 =
          lzwStateAfter [84, 79, 66, 256] 3 :=
  ⟨by rfl, by decide, by decide,
    lzw_decoder_dict_invariant [84, 79, 66, 256] [84, 79, 66, 84, 79] 3
      (by rfl) (by decide) (by decide)⟩

/-! ### Encoder/decoder simulation -/

lemma length_eq_of_map_range {β : Type} {f : β → Nat} {l : List β} {n : Nat}
    (h : l.map f = List.range n) : l.length = n := by
  have := congrArg List.length h
  simpa using this

lemma headD_append_of_ne_nil {l t : List Nat} (h : l ≠ []) (d : Nat) :
    (l ++ t).headD d = l.headD d := by
  cases l with
  | nil => exact absurd rfl h
  | cons a as => rfl

/-- Invariant tying the `LZW.compress` loop state, after the encoder has
consumed `d :: consumed`, to a decoder run over the emitted codes.  The
decoder's dictionary-values list is the encoder's keys list minus its last
entry (the decoder lags the encoder by exactly one dictionary insertion),
and that last encoder key is `dst.w ++ [e.w.headD 0]` — the classic
self-reference situation when it is referenced immediately. -/
structure SimInv (d : Nat) (consumed : List Nat) (e : EncSt) : Prop where
  senc_snd : e.dict.map Prod.snd = List.range e.dictSize
  senc_nodup : (e.dict.map Prod.fst).Nodup
  senc_wne : e.w ≠ []
  senc_wmem : (alookup e.dict e.w).isSome
  senc_prefix : e.dict.take 256 = lzwEncDict0
  senc_size : e.dictSize = 256 + e.result.length
  senc_codes : ∀ i (hi : i < e.result.length), e.result.get ⟨i, hi⟩ < 256 + i
  scorr :
    (e.result = [] ∧ e.w = d :: consumed ∧ e.dict = lzwEncDict0) ∨
    (∃ c0 cs dst, e.result = c0 :: cs ∧ decRun c0 cs = .ok dst ∧
      dst.result ++ e.w = d :: consumed ∧
      dst.dict.map Prod.fst = List.range dst.dictSize ∧
      dst.dictSize + 1 = e.dictSize ∧
      dst.dict.map Prod.snd = (e.dict.map Prod.fst).dropLast ∧
      dst.w ≠ [] ∧
      (e.dict.map Prod.fst).getLast? = some (dst.w ++ [e.w.headD 0]))

/-- Core simulation step: when the encoder emits the code of its pending
string `e.w`, the decoder (in a corresponding state) resolves that code to
exactly `e.w` — through its dictionary, or through the `k == dict_size`
self-reference rule — and catches up the lagging dictionary entry. -/
lemma decStep_sim (e : EncSt) (dst : DecSt) (v : Nat)
    (hsnd : e.dict.map Prod.snd = List.range e.dictSize)
    (hdfst : dst.dict.map Prod.fst = List.range dst.dictSize)
    (hsize : dst.dictSize + 1 = e.dictSize)
    (hdsnd : dst.dict.map Prod.snd = (e.dict.map Prod.fst).dropLast)
    (hdw : dst.w ≠ [])
    (hlast : (e.dict.map Prod.fst).getLast? = some (dst.w ++ [e.w.headD 0]))
    (hwv : alookup e.dict e.w = some v) :
    decStep dst v = .ok ⟨dst.dict ++ [(dst.dictSize, dst.w ++ [e.w.headD 0])],
      dst.dictSize + 1, dst.result ++ e.w, e.w⟩ := by
  have hmemv : (e.w, v) ∈ e.dict := alookup_mem hwv
  have hlenE : e.dict.length = e.dictSize := length_eq_of_map_range hsnd
  have hsnd' : e.dict.map Prod.snd = List.range e.dict.length := by
    rw [hlenE]; exact hsnd
  obtain ⟨hvlt, hget⟩ := mem_map_eq_range_get Prod.snd e.dict hsnd' hmemv
  have hdlen : dst.dict.length = dst.dictSize := length_eq_of_map_range hdfst
  have hKlen : (e.dict.map Prod.fst).length = e.dictSize := by
    simpa using hlenE
  have hKv : v < (e.dict.map Prod.fst).length := by simpa using hvlt
  have hK : (e.dict.map Prod.fst).get ⟨v, hKv⟩ = e.w := by
    simp only [List.get_eq_getElem, List.getElem_map]
    have : e.dict.get ⟨v, hvlt⟩ = (e.w, v) := hget
    simp only [List.get_eq_getElem] at this
    rw [this]
  rcases Nat.lt_or_ge v dst.dictSize with hv | hv
  · -- the emitted code is already in the decoder's dictionary
    have hvd : v < dst.dict.length := by omega
    have hdfst' : dst.dict.map Prod.fst = List.range dst.dict.length := by
      rw [hdlen]; exact hdfst
    have halk : alookup dst.dict v = some ((dst.dict.get ⟨v, hvd⟩).2) :=
      alookup_of_fst_range hdfst' hvd
    have hsndv : (dst.dict.get ⟨v, hvd⟩).2 = e.w := by
      have h1 : (dst.dict.map Prod.snd).get ⟨v, by simpa using hvd⟩
          = (dst.dict.get ⟨v, hvd⟩).2 := by
        simp
      have h2 : (dst.dict.map Prod.snd).get ⟨v, by simpa using hvd⟩
          = ((e.dict.map Prod.fst).dropLast).get
              ⟨v, by rw [← hdsnd]; simpa using hvd⟩ :=
        List.get_of_eq hdsnd _
      have h3 : ((e.dict.map Prod.fst).dropLast).get
          ⟨v, by rw [← hdsnd]; simpa using hvd⟩
          = (e.dict.map Prod.fst).get ⟨v, hKv⟩ := by
        simp only [List.get_eq_getElem]
        exact List.getElem_dropLast ..
      rw [← h1, h2, h3, hK]
    rw [hsndv] at halk
    unfold decStep
    rw [halk]
  · -- the emitted code is the decoder's next free code: self-reference
    have hveq : v = dst.dictSize := by omega
    have halk : alookup dst.dict v = none := by
      apply alookup_eq_none_iff _ _ |>.mpr
      rw [hdfst]
      simp only [List.mem_range]
      omega
    have hvlast : v = (e.dict.map Prod.fst).length - 1 := by omega
    have hlast' : (e.dict.map Prod.fst).get ⟨v, hKv⟩
        = dst.w ++ [e.w.headD 0] := by
      rw [List.getLast?_eq_getElem?, ← hvlast] at hlast
      rw [List.getElem?_eq_getElem hKv] at hlast
      injection hlast with hlast
    have hself : e.w = dst.w ++ [e.w.headD 0] := by
      conv_lhs => rw [← hK]
      exact hlast'
    have hheads : e.w.headD 0 = dst.w.headD 0 := by
      conv_lhs => rw [hself]
      exact headD_append_of_ne_nil hdw 0
    have hself' : e.w = dst.w ++ [dst.w.headD 0] := by
      rw [hself, hheads]
    unfold decStep
    rw [halk]
    simp only [if_pos hveq]
    rw [hself']

lemma lzwDecDict0_snd : lzwDecDict0.map Prod.snd =
    (List.range 256).map (fun i => [i]) := by
  simp [lzwDecDict0, List.map_map]

lemma simInv_init (d : Nat) (hd : d < 256) :
    SimInv d [] ⟨lzwEncDict0, 256, [], [d]⟩ := by
  refine ⟨?_, ?_, ?_, ?_, ?_, ?_, ?_, ?_⟩
  · simpa using lzwEncDict0_snd
  · exact lzwEncDict0_fst_nodup
  · simp
  · show (alookup lzwEncDict0 [d]).isSome
    rw [alookup_lzwEncDict0 hd]
    rfl
  · exact List.take_of_length_le (by rw [lzwEncDict0_length])
  · simp
  · intro i hi; simp at hi
  · exact Or.inl ⟨rfl, rfl, rfl⟩

lemma simInv_step {d : Nat} {consumed : List Nat} {e : EncSt} (c : Nat)
    (hc : c < 256) (h : SimInv d consumed e) :
    SimInv d (consumed ++ [c]) (encStep e c) := by
  obtain ⟨hsnd, hnodup, hwne, hwmem, htk256, hsize, hcodes, hcorr⟩ := h
  have hlenE : e.dict.length = e.dictSize := length_eq_of_map_range hsnd
  unfold encStep
  by_cases hwc : (alookup e.dict (e.w ++ [c])).isSome
  · -- the extended string is known: only `w` changes
    rw [if_pos hwc]
    refine ⟨hsnd, hnodup, by simp, hwc, htk256, hsize, hcodes, ?_⟩
    rcases hcorr with ⟨hres, hw, hdict⟩ |
      ⟨c0, cs, dst, hres, hrun, hout, hdfst, hdsize, hdsnd, hdw, hlast⟩
    · exact Or.inl ⟨hres, by rw [hw]; simp, hdict⟩
    · refine Or.inr ⟨c0, cs, dst, hres, hrun, ?_, hdfst, hdsize, hdsnd, hdw, ?_⟩
      · rw [← List.append_assoc, hout]
        simp
      · rw [headD_append_of_ne_nil hwne 0]
        exact hlast
  · -- the extended string is new: emit the code of `w`, insert `wc`
    rw [if_neg hwc]
    obtain ⟨v, hv⟩ := Option.isSome_iff_exists.mp hwmem
    rw [hv]
    simp only [Option.getD_some]
    have hmemv : (e.w, v) ∈ e.dict := alookup_mem hv
    have hvlt : v < e.dictSize := by
      have : v ∈ e.dict.map Prod.snd := List.mem_map_of_mem Prod.snd hmemv
      rw [hsnd] at this
      exact List.mem_range.mp this
    have hwcnot : (e.w ++ [c]) ∉ e.dict.map Prod.fst := by
      rw [← alookup_eq_none_iff]
      exact Option.not_isSome_iff_eq_none.mp hwc
    have hcmem : ([c], c) ∈ e.dict := by
      apply List.mem_of_mem_take (n := 256)
      rw [htk256]
      simp only [lzwEncDict0, List.mem_map, List.mem_range]
      exact ⟨c, hc, rfl⟩
    refine ⟨?_, ?_, by simp, ?_, ?_, ?_, ?_, ?_⟩
    · -- values stay 0, 1, 2, …
      simp only [List.map_append, hsnd, List.map_cons, List.map_nil]
      rw [← List.range_succ]
    · -- keys stay distinct
      simp only [List.map_append, List.map_cons, List.map_nil]
      rw [List.nodup_append]
      exact ⟨hnodup, List.nodup_singleton _,
        by intro a ha hb; simp at hb; subst hb; exact hwcnot ha⟩
    · -- the new pending string [c] is a key
      show (alookup (e.dict ++ [(e.w ++ [c], e.dictSize)]) [c]).isSome
      obtain ⟨u, hu⟩ := Option.isSome_iff_exists.mp (alookup_isSome_of_mem hcmem)
      rw [alookup_append_left hu]
      rfl
    · -- the 256 initial entries stay in place
      rw [List.take_append_of_le_length (by omega), htk256]
    · -- one code emitted, one entry inserted
      simp only [List.length_append, List.length_cons, List.length_nil]
      omega
    · -- every emitted code is below 256 + its index
      intro i hi
      simp only [List.length_append, List.length_cons, List.length_nil] at hi
      rcases Nat.lt_or_ge i e.result.length with hilt | hige
      · have : (e.result ++ [v]).get ⟨i, by simp; omega⟩
            = e.result.get ⟨i, hilt⟩ := by
          simp only [List.get_eq_getElem]
          rw [List.getElem_append_left]
        rw [this]
        exact hcodes i hilt
      · have hieq : i = e.result.length := by omega
        subst hieq
        have : (e.result ++ [v]).get ⟨e.result.length, by simp⟩ = v := by
          simp only [List.get_eq_getElem]
          exact List.getElem_concat_length _ _ _ rfl (by simp)
        rw [this]
        omega
    · -- decoder correspondence
      rcases hcorr with ⟨hres, hw, hdict⟩ |
        ⟨c0, cs, dst, hres, hrun, hout, hdfst, hdsize, hdsnd, hdw, hlast⟩
      · -- first emission: the decoder starts up
        have hw0 : (e.w, v) ∈ lzwEncDict0 := by rw [← hdict]; exact hmemv
        obtain ⟨hv256, hwform⟩ := mem_lzwEncDict0 hw0
        have hv256' : v < 256 := hv256
        have hwform' : e.w = [v] := hwform
        have hdcons : d :: consumed = [v] := by rw [← hw, hwform']
        refine Or.inr ⟨v, [], ⟨lzwDecDict0, 256, [v], [v]⟩, ?_, ?_, ?_, ?_,
          ?_, ?_, ?_, ?_⟩
        · rw [hres]
          rfl
        · unfold decRun
          rw [alookup_lzwDecDict0 hv256]
          rfl
        · show [v] ++ [c] = d :: (consumed ++ [c])
          rw [show d :: (consumed ++ [c]) = (d :: consumed) ++ [c] from rfl,
            hdcons]
        · simpa using lzwDecDict0_fst
        · show 256 + 1 = e.dictSize + 1
          rw [hsize, hres]
          simp
        · show lzwDecDict0.map Prod.snd
            = ((e.dict ++ [(e.w ++ [c], e.dictSize)]).map Prod.fst).dropLast
          rw [List.map_append, List.map_cons, List.map_nil,
            List.dropLast_concat, hdict, lzwEncDict0_fst, lzwDecDict0_snd]
        · simp
        · show ((e.dict ++ [(e.w ++ [c], e.dictSize)]).map Prod.fst).getLast?
            = some ([v] ++ [([c] : List Nat).headD 0])
          rw [List.map_append, List.map_cons, List.map_nil,
            List.getLast?_concat, hwform']
          rfl
      · -- later emissions: one decoder step catches up
        have hstep := decStep_sim e dst v hsnd hdfst hdsize hdsnd hdw hlast hv
        refine Or.inr ⟨c0, cs ++ [v],
          ⟨dst.dict ++ [(dst.dictSize, dst.w ++ [e.w.headD 0])],
            dst.dictSize + 1, dst.result ++ e.w, e.w⟩, ?_, ?_, ?_, ?_, ?_,
          ?_, hwne, ?_⟩
        · rw [hres]
          rfl
        · unfold decRun at hrun ⊢
          cases hw0 : alookup lzwDecDict0 c0 with
          | none => rw [hw0] at hrun; exact absurd hrun (by simp)
          | some w0 =>
            rw [hw0] at hrun
            have hrun2 : decLoop ⟨lzwDecDict0, 256, w0, w0⟩ cs
                = Except.ok dst := hrun
            show decLoop ⟨lzwDecDict0, 256, w0, w0⟩ (cs ++ [v]) = _
            rw [decLoop_append, hrun2]
            show decLoop dst [v] = _
            simp only [decLoop]
            rw [hstep]
        · show dst.result ++ e.w ++ [c] = d :: (consumed ++ [c])
          rw [List.append_assoc, ← List.append_assoc, hout]
          simp
        · show (dst.dict ++ [(dst.dictSize, dst.w ++ [e.w.headD 0])]).map
            Prod.fst = List.range (dst.dictSize + 1)
          simp only [List.map_append, hdfst, List.map_cons, List.map_nil]
          rw [← List.range_succ]
        · show dst.dictSize + 1 + 1 = e.dictSize + 1
          omega
        · show (dst.dict ++ [(dst.dictSize, dst.w ++ [e.w.headD 0])]).map
            Prod.snd
            = ((e.dict ++ [(e.w ++ [c], e.dictSize)]).map Prod.fst).dropLast
          have hKne : e.dict.map Prod.fst ≠ [] := by
            intro hnil
            rw [hnil] at hlast
            simp at hlast
          have hgl : (e.dict.map Prod.fst).getLast hKne
              = dst.w ++ [e.w.headD 0] := by
            have := List.getLast?_eq_getLast (e.dict.map Prod.fst) hKne
            rw [this] at hlast
            injection hlast
          conv_rhs => rw [List.map_append, List.map_cons, List.map_nil,
            List.dropLast_concat]
          conv_lhs => rw [List.map_append, List.map_cons, List.map_nil,
            hdsnd]
          rw [← hgl]
          exact List.dropLast_append_getLast hKne
        · show ((e.dict ++ [(e.w ++ [c], e.dictSize)]).map Prod.fst).getLast?
            = some (e.w ++ [([c] : List Nat).headD 0])
          rw [List.map_append, List.map_cons, List.map_nil,
            List.getLast?_concat]
          rfl

lemma simInv_loop (d : Nat) (v : List Nat) : ∀ (consumed : List Nat)
    (e : EncSt), (∀ b ∈ v, b < 256) → SimInv d consumed e →
    SimInv d (consumed ++ v) (encLoop e v) := by
  induction v with
  | nil => intro consumed e _ h; simpa using h
  | cons c rest ih =>
    intro consumed e hb h
    have step := simInv_step c (hb c (by simp)) h
    have := ih (consumed ++ [c]) (encStep e c)
      (fun b hbm => hb b (by simp [hbm])) step
    simpa using this

lemma lzw_roundtrip_main (s : List Nat) (hs : ∀ b ∈ s, b < 256) :
    lzwDecompress (lzwCompress s) = .ok s := by
  cases s with
  | nil => rfl
  | cons d rest =>
    have hd : d < 256 := hs d (by simp)
    have hrest : ∀ b ∈ rest, b < 256 := fun b hb => hs b (by simp [hb])
    have hsim := simInv_loop d rest [] ⟨lzwEncDict0, 256, [], [d]⟩ hrest
      (simInv_init d hd)
    simp only [List.nil_append] at hsim
    obtain ⟨hsnd, hnodup, hwne, hwmem, htk256, hsize, hcodes, hcorr⟩ := hsim
    show lzwDecompress
      (if (encLoop ⟨lzwEncDict0, 256, [], [d]⟩ rest).w ≠ [] then
        (encLoop ⟨lzwEncDict0, 256, [], [d]⟩ rest).result ++
          [(alookup (encLoop ⟨lzwEncDict0, 256, [], [d]⟩ rest).dict
            (encLoop ⟨lzwEncDict0, 256, [], [d]⟩ rest).w).getD 0]
      else (encLoop ⟨lzwEncDict0, 256, [], [d]⟩ rest).result)
      = Except.ok (d :: rest)
    set e := encLoop ⟨lzwEncDict0, 256, [], [d]⟩ rest with he
    rw [if_pos hwne]
    obtain ⟨v, hv⟩ := Option.isSome_iff_exists.mp hwmem
    rw [hv]
    simp only [Option.getD_some]
    rcases hcorr with ⟨hres, hw, hdict⟩ |
      ⟨c0, cs, dst, hres, hrun, hout, hdfst, hdsize, hdsnd, hdw, hlast⟩
    · -- the loop never emitted: a single final code
      rw [hres]
      have hw0 : (e.w, v) ∈ lzwEncDict0 := by rw [← hdict]; exact alookup_mem hv
      obtain ⟨hv256, hwform⟩ := mem_lzwEncDict0 hw0
      have hv256' : v < 256 := hv256
      have hwform' : e.w = [v] := hwform
      show lzwDecompress (v :: []) = Except.ok (d :: rest)
      show (decRun v []).map (fun st => st.result) = Except.ok (d :: rest)
      unfold decRun
      rw [alookup_lzwDecDict0 hv256']
      show Except.ok [v] = Except.ok (d :: rest)
      rw [← hw, hwform']
    · -- the loop emitted codes: one final decoder step
      have hstep := decStep_sim e dst v hsnd hdfst hdsize hdsnd hdw hlast hv
      rw [hres]
      show lzwDecompress (c0 :: (cs ++ [v])) = Except.ok (d :: rest)
      show (decRun c0 (cs ++ [v])).map (fun st => st.result)
        = Except.ok (d :: rest)
      unfold decRun at hrun ⊢
      cases hw0 : alookup lzwDecDict0 c0 with
      | none => rw [hw0] at hrun; exact absurd hrun (by simp)
      | some w0 =>
        rw [hw0] at hrun
        have hrun2 : decLoop ⟨lzwDecDict0, 256, w0, w0⟩ cs
            = Except.ok dst := hrun
        show (decLoop ⟨lzwDecDict0, 256, w0, w0⟩ (cs ++ [v])).map
          (fun st => st.result) = Except.ok (d :: rest)
        rw [decLoop_append, hrun2]
        show (decLoop dst [v]).map (fun st => st.result)
          = Except.ok (d :: rest)
        simp only [decLoop]
        rw [hstep]
        show Except.ok (dst.result ++ e.w) = Except.ok (d :: rest)
        rw [hout]

lemma lzw_codes_bound_main (s : List Nat) (hs : ∀ b ∈ s, b < 256) :
    ∀ i v, (lzwCompress s)[i]? = some v → v < 256 + i := by
  cases s with
  | nil => intro i v hgv; simp [lzwCompress] at hgv
  | cons d rest =>
    have hd : d < 256 := hs d (by simp)
    have hrest : ∀ b ∈ rest, b < 256 := fun b hb => hs b (by simp [hb])
    have hsim := simInv_loop d rest [] ⟨lzwEncDict0, 256, [], [d]⟩ hrest
      (simInv_init d hd)
    simp only [List.nil_append] at hsim
    obtain ⟨hsnd, hnodup, hwne, hwmem, htk256, hsize, hcodes, hcorr⟩ := hsim
    set e := encLoop ⟨lzwEncDict0, 256, [], [d]⟩ rest with he
    obtain ⟨v0, hv0⟩ := Option.isSome_iff_exists.mp hwmem
    have hv0lt : v0 < e.dictSize := by
      have : v0 ∈ e.dict.map Prod.snd :=
        List.mem_map_of_mem Prod.snd (alookup_mem hv0)
      rw [hsnd] at this
      exact List.mem_range.mp this
    have hcomp : lzwCompress (d :: rest) = e.result ++ [v0] := by
      show (if e.w ≠ [] then e.result ++ [(alookup e.dict e.w).getD 0]
        else e.result) = e.result ++ [v0]
      rw [if_pos hwne, hv0]
      rfl
    intro i v hgv
    rw [hcomp] at hgv
    rcases Nat.lt_or_ge i e.result.length with hilt | hige
    · rw [List.getElem?_append_left hilt, List.getElem?_eq_getElem hilt]
        at hgv
      injection hgv with hgv
      have := hcodes i hilt
      simp only [List.get_eq_getElem] at this
      omega
    · rw [List.getElem?_append_right hige] at hgv
      rcases Nat.lt_or_ge (i - e.result.length) 1 with hlt1 | hge1
      · have hieq : i = e.result.length := by omega
        have : i - e.result.length = 0 := by omega
        rw [this] at hgv
        simp at hgv
        subst hgv
        omega
      · have : ([v0] : List Nat)[i - e.result.length]? = none := by
          apply List.getElem?_eq_none
          simpa using hge1
        rw [this] at hgv
        exact absurd hgv (by simp)

/-- C2: for every finite byte sequence `s`,
`LZW.decompress (LZW.compress s) = s`: the decoder, starting from the same
256-entry single-byte dictionary and using the `k == dict_size`
self-reference rule, reproduces the input exactly. -/
theorem lzw_roundtrip (s : List Nat) (hs : ∀ b ∈ s, b < 256) :
    lzwDecompress (lzwCompress s) = .ok s :=
  lzw_roundtrip_main s hs

/-- Witness for `lzw_roundtrip` at `b"TOT"`. -/
theorem lzw_roundtrip_witness :
    (∀ b ∈ ([84, 79, 84] : List Nat), b < 256) ∧
      lzwDecompress (lzwCompress [84, 79, 84]) = .ok [84, 79, 84] :=
  ⟨by decide, lzw_roundtrip [84, 79, 84] (by decide)⟩

/-- C10: every code emitted by `LZW.compress` at position `i` (0-based) is
below `256 + i`, and consequently `LZW.decompress` accepts every output of
`LZW.compress` — the `Bad compressed k` branch is never reached. -/
theorem lzw_compress_codes_safe (s : List Nat) (hs : ∀ b ∈ s, b < 256) :
    (∀ i v, (lzwCompress s)[i]? = some v → v < 256 + i) ∧
      ∃ out, lzwDecompress (lzwCompress s) = .ok out :=
  ⟨lzw_codes_bound_main s hs, s, lzw_roundtrip_main s hs⟩

/-- Witness for `lzw_compress_codes_safe` at `b"aab"`. -/
theorem lzw_compress_codes_safe_witness :
    (∀ b ∈ ([97, 97, 98] : List Nat), b < 256) ∧
      (∀ i v, (lzwCompress [97, 97, 98])[i]? = some v → v < 256 + i) ∧
      ∃ out, lzwDecompress (lzwCompress [97, 97, 98]) = .ok out :=
  ⟨by decide, (lzw_compress_codes_safe [97, 97, 98] (by decide)).1,
    (lzw_compress_codes_safe [97, 97, 98] (by decide)).2⟩

/-! ## Huffman codec (src/algorithms.py, classes HuffmanNode, HuffmanCoding)

`HuffmanCoding.compress` only ever builds two node shapes: symbol nodes
pushed by `_make_heap` (char set, both children `None`) and merged nodes
(char `None`, both children set), so `HuffmanNode` is embedded as the
two-constructor tree `HTree`.  Python's `heapq` (`heappush`/`heappop` with
`_siftdown`/`_siftup`) is embedded operation for operation; the two sift
loops and the `_merge_nodes` loop take an explicit iteration budget that
is always sufficient (`_siftdown`'s position strictly decreases and starts
at `pos`; `_siftup`'s position strictly increases below `len(heap)`;
`_merge_nodes` shrinks the heap by one node per round), so the zero-budget
branches are never taken.  Bit strings (Python `str` of '0'/'1') are
`List Char`; `format(b, "08b")` and `int(s, 2)` are `natToBits8` and
`bitsToNat` (every packed byte is below 256).  The pickled payload
`(bytes, reverse_mapping)` is passed as the pair itself. -/

/-- The two node shapes `HuffmanCoding.compress` constructs. -/
inductive HTree where
  | leaf (char : Nat) (freq : Nat)
  | node (freq : Nat) (left : HTree) (right : HTree)
deriving DecidableEq, Repr

instance : Inhabited HTree := ⟨.leaf 0 0⟩

/-- `HuffmanNode.freq`. -/
def HTree.freq : HTree → Nat
  | .leaf _ f => f
  | .node f _ _ => f

/-- `HuffmanNode.__lt__`: nodes compare by frequency only. -/
def hlt (a b : HTree) : Bool := a.freq < b.freq

/-- The `while pos > startpos` loop of `heapq._siftdown`. -/
def siftdownLoop {α : Type} [Inhabited α] (lt : α → α → Bool) (newitem : α) :
    Nat → List α → Nat → Nat → List α
  | 0, heap, _startpos, pos => heap.set pos newitem
  | fuel + 1, heap, startpos, pos =>
    if startpos < pos then
      let parentpos := (pos - 1) / 2
      let parent := heap.getD parentpos default
      if lt newitem parent then
        siftdownLoop lt newitem fuel (heap.set pos parent) startpos parentpos
      else heap.set pos newitem
    else heap.set pos newitem

/-- `heapq._siftdown(heap, startpos, pos)`. -/
def siftdown {α : Type} [Inhabited α] (lt : α → α → Bool) (heap : List α)
    (startpos pos : Nat) : List α :=
  siftdownLoop lt (heap.getD pos default) (pos + 1) heap startpos pos

/-- The `while childpos < endpos` loop of `heapq._siftup`. -/
def siftupLoop {α : Type} [Inhabited α] (lt : α → α → Bool) :
    Nat → List α → Nat → (Nat × List α)
  | 0, heap, pos => (pos, heap)
  | fuel + 1, heap, pos =>
    let endpos := heap.length
    let childpos := 2 * pos + 1
    if childpos < endpos then
      let rightpos := childpos + 1
      let childpos :=
        if rightpos < endpos ∧
            ¬ lt (heap.getD childpos default) (heap.getD rightpos default)
        then rightpos else childpos
      siftupLoop lt fuel (heap.set pos (heap.getD childpos default)) childpos
    else (pos, heap)

/-- `heapq._siftup(heap, pos)`. -/
def siftup {α : Type} [Inhabited α] (lt : α → α → Bool) (heap : List α)
    (pos : Nat) : List α :=
  let newitem := heap.getD pos default
  let r := siftupLoop lt heap.length heap pos
  siftdown lt (r.2.set r.1 newitem) pos r.1

/-- `heapq.heappush`. -/
def heappush {α : Type} [Inhabited α] (lt : α → α → Bool) (heap : List α)
    (item : α) : List α :=
  siftdown lt (heap ++ [item]) 0 heap.length

/-- `heapq.heappop`; `none` is Python's `IndexError` on an empty heap. -/
def heappop {α : Type} [Inhabited α] (lt : α → α → Bool) (heap : List α) :
    Option (α × List α) :=
  match heap.getLast? with
  | none => none
  | some lastelt =>
    let rest := heap.dropLast
    if rest.isEmpty then some (lastelt, [])
    else some (rest.getD 0 default, siftup lt (rest.set 0 lastelt) 0)

/-- The keys of `collections.Counter(data)` in order (first occurrence). -/
def firstOccs (data : List Nat) : List Nat :=
  data.foldl (fun acc c => if c ∈ acc then acc else acc ++ [c]) []

/-- `Counter(data)` as an ordered association list
(`HuffmanCoding._make_frequency_dict`). -/
def makeFrequency (data : List Nat) : List (Nat × Nat) :=
  (firstOccs data).map (fun c => (c, data.count c))

/-- `HuffmanCoding._make_heap`: push a leaf per symbol onto `self.heap`. -/
def makeHeap (heap : List HTree) (frequency : List (Nat × Nat)) :
    List HTree :=
  frequency.foldl (fun h p => heappush hlt h (HTree.leaf p.1 p.2)) heap

/-- The `while len(self.heap) > 1` loop of `HuffmanCoding._merge_nodes`. -/
def mergeNodesLoop : Nat → List HTree → List HTree
  | 0, heap => heap
  | fuel + 1, heap =>
    if heap.length > 1 then
      match heappop hlt heap with
      | none => heap
      | some (node1, h1) =>
        match heappop hlt h1 with
        | none => h1
        | some (node2, h2) =>
          mergeNodesLoop fuel
            (heappush hlt h2 (HTree.node (node1.freq + node2.freq)
              node1 node2))
    else heap

/-- `HuffmanCoding._merge_nodes`. -/
def mergeNodes (heap : List HTree) : List HTree :=
  mergeNodesLoop heap.length heap

/-- Python dict assignment `d[a] = b`: overwrite in place, or append a new
key. -/
def dictSet {α β : Type} [DecidableEq α] (l : List (α × β)) (a : α) (b : β) :
    List (α × β) :=
  if (alookup l a).isSome then
    l.map (fun p => if p.1 = a then (a, b) else p)
  else l ++ [(a, b)]

/-- `HuffmanCoding._make_codes`, threading `(self.codes,
self.reverse_mapping)`: a leaf stores its accumulated path, an internal
node recurses left with `"0"` appended and right with `"1"` appended. -/
def makeCodes : HTree → List Char →
    List (Nat × List Char) × List (List Char × Nat) →
    List (Nat × List Char) × List (List Char × Nat)
  | .leaf ch _, cur, st => (dictSet st.1 ch cur, dictSet st.2 cur ch)
  | .node _ l r, cur, st =>
    makeCodes r (cur ++ ['1']) (makeCodes l (cur ++ ['0']) st)

/-- `HuffmanCoding._get_encoded_text`; `self.codes[char]` cannot miss
because `_make_codes` has just stored a code for every symbol of `data`,
so the `.getD []` default is never used. -/
def getEncodedText (codes : List (Nat × List Char)) (data : List Nat) :
    List Char :=
  data.foldl (fun acc ch => acc ++ (alookup codes ch).getD []) []

/-- `format(b, "08b")` for a byte `b < 256`. -/
def natToBits8 (b : Nat) : List Char :=
  [b / 128 % 2, b / 64 % 2, b / 32 % 2, b / 16 % 2,
    b / 8 % 2, b / 4 % 2, b / 2 % 2, b % 2].map
    (fun d => if d = 1 then '1' else '0')

/-- `int(s, 2)` on a string of '0'/'1' characters. -/
def bitsToNat (bits : List Char) : Nat :=
  bits.foldl (fun acc c => 2 * acc + (if c = '1' then 1 else 0)) 0

/-- `HuffmanCoding._pad_encoded_text`. -/
def padEncodedText (enc : List Char) : List Char :=
  let p := 8 - enc.length % 8
  let padding := if p = 8 then 0 else p
  natToBits8 padding ++ (enc ++ List.replicate padding '0')

/-- The byte-packing loop of `HuffmanCoding.compress` (lines 139-142):
eight bits at a time through `int(byte, 2)`. -/
def bitsToBytes : List Char → List Nat
  | [] => []
  | b1 :: b2 :: b3 :: b4 :: b5 :: b6 :: b7 :: b8 :: rest =>
    bitsToNat [b1, b2, b3, b4, b5, b6, b7, b8] :: bitsToBytes rest
  | l => [bitsToNat l]

/-- `HuffmanCoding._bytes_to_binary`. -/
def bytesToBits (data : List Nat) : List Char :=
  data.foldl (fun acc b => acc ++ natToBits8 b) []

/-- `HuffmanCoding._remove_padding`.  (`bit_string[:-padding]` is the
prefix of length `len - padding`, empty when `padding` exceeds the
length, exactly as in Python.) -/
def removePadding (bits : List Char) : List Char :=
  let padding := bitsToNat (bits.take 8)
  let rest := bits.drop 8
  if padding > 0 then rest.take (rest.length - padding) else rest

/-- The bit-scanning loop of `HuffmanCoding._decode_text`. -/
def decodeTextLoop (rev : List (List Char × Nat)) :
    List Char → List Char → List Nat
  | _cur, [] => []
  | cur, bit :: rest =>
    match alookup rev (cur ++ [bit]) with
    | some ch => ch :: decodeTextLoop rev [] rest
    | none => decodeTextLoop rev (cur ++ [bit]) rest

/-- `HuffmanCoding._decode_text`. -/
def decodeText (bits : List Char) (rev : List (List Char × Nat)) :
    List Nat :=
  decodeTextLoop rev [] bits

/-- The per-instance state of `HuffmanCoding` (`self.heap`, `self.codes`,
`self.reverse_mapping`), which `__init__` sets to empty and `compress`
never resets. -/
structure HState where
  heap : List HTree
  codes : List (Nat × List Char)
  rev : List (List Char × Nat)
deriving Repr, DecidableEq

/-- `HuffmanCoding.compress` on an instance in state `st`, returning the
updated instance state and the payload `(byte_array, reverse_mapping)`
that the source pickles.  The `heappop` cannot return `none`: the heap
holds at least one node per distinct symbol of the nonempty `data`. -/
def huffCompressSt (st : HState) (data : List Nat) :
    HState × (List Nat × List (List Char × Nat)) :=
  if data = [] then (st, ([], []))
  else
    let heap2 := mergeNodes (makeHeap st.heap (makeFrequency data))
    match heappop hlt heap2 with
    | none => (⟨heap2, st.codes, st.rev⟩, ([], []))
    | some (root, heap3) =>
      let cr := makeCodes root [] (st.codes, st.rev)
      (⟨heap3, cr.1, cr.2⟩,
        (bitsToBytes (padEncodedText (getEncodedText cr.1 data)), cr.2))

/-- `HuffmanCoding.compress` on a fresh instance. -/
def huffCompress (data : List Nat) : List Nat × List (List Char × Nat) :=
  (huffCompressSt ⟨[], [], []⟩ data).2

/-- `HuffmanCoding.decompress` (src/algorithms.py lines 169-183); it uses
only the payload, never the instance state. -/
def huffDecompress (payload : List Nat × List (List Char × Nat)) :
    List Nat :=
  if payload.1 = [] then []
  else decodeText (removePadding (bytesToBits payload.1)) payload.2

/-- C1, failing evaluation: on the single-distinct-symbol input `b"AAAA"`
the sole symbol receives the empty code, the packed stream carries no
data bits, and decompression returns `b""` instead of `b"AAAA"` (it does
terminate). -/
theorem huffman_single_symbol_fails :
    huffDecompress (huffCompress [65, 65, 65, 65]) = [] ∧
      ([] : List Nat) ≠ [65, 65, 65, 65] := by
  decide

/-- C9: `HuffmanCoding.compress` never resets `self.codes` and
`self.reverse_mapping`, so a second compress on the same instance ships a
table polluted by the first call: compressing `b"AB"` and then
`b"CCDE"` on one instance makes the shipped table map `"1"` to `B`,
which hijacks greedy decoding, and decompressing the second payload
yields `b"CCBCBB"` rather than `b"CCDE"`. -/
theorem huffman_state_leak :
    ∃ s1 s2 : List Nat,
      huffDecompress
        (huffCompressSt (huffCompressSt ⟨[], [], []⟩ s1).1 s2).2 ≠ s2 :=
  ⟨[65, 66], [67, 67, 68, 69], by decide⟩

/-! ### Prefix-freeness of the emitted code table -/

/-- Root-to-leaf paths of a tree ('0' = left, '1' = right). -/
def leafPaths : HTree → List (List Char)
  | .leaf _ _ => [[]]
  | .node _ l r =>
    (leafPaths l).map (fun p => '0' :: p) ++
      (leafPaths r).map (fun p => '1' :: p)

lemma leafPaths_prefix_eq : ∀ (t : HTree) (p q : List Char),
    p ∈ leafPaths t → q ∈ leafPaths t → p <+: q → p = q := by
  intro t
  induction t with
  | leaf ch f =>
    intro p q hp hq _
    simp only [leafPaths, List.mem_singleton] at hp hq
    rw [hp, hq]
  | node f l r ihl ihr =>
    intro p q hp hq hpre
    simp only [leafPaths, List.mem_append, List.mem_map] at hp hq
    rcases hp with ⟨p', hp', rfl⟩ | ⟨p', hp', rfl⟩ <;>
      rcases hq with ⟨q', hq', rfl⟩ | ⟨q', hq', rfl⟩
    · rw [List.cons_prefix_cons] at hpre
      rw [ihl p' q' hp' hq' hpre.2]
    · rw [List.cons_prefix_cons] at hpre
      exact absurd hpre.1 (by decide)
    · rw [List.cons_prefix_cons] at hpre
      exact absurd hpre.1 (by decide)
    · rw [List.cons_prefix_cons] at hpre
      rw [ihr p' q' hp' hq' hpre.2]

lemma dictSet_keys {α β : Type} [DecidableEq α] (l : List (α × β)) (a : α)
    (b : β) (x : α) (hx : x ∈ (dictSet l a b).map Prod.fst) :
    x ∈ l.map Prod.fst ∨ x = a := by
  unfold dictSet at hx
  by_cases h : (alookup l a).isSome
  · rw [if_pos h] at hx
    simp only [List.map_map, List.mem_map, Function.comp] at hx
    obtain ⟨p, hp, hpx⟩ := hx
    by_cases hpa : p.1 = a
    · rw [if_pos hpa] at hpx
      exact Or.inr hpx.symm
    · rw [if_neg hpa] at hpx
      exact Or.inl (hpx ▸ List.mem_map_of_mem Prod.fst hp)
  · rw [if_neg h] at hx
    simp only [List.map_append, List.mem_append, List.map_cons, List.map_nil,
      List.mem_singleton] at hx
    exact hx

lemma makeCodes_rev_keys : ∀ (t : HTree) (cur : List Char)
    (st : List (Nat × List Char) × List (List Char × Nat)) (x : List Char),
    x ∈ (makeCodes t cur st).2.map Prod.fst →
    x ∈ st.2.map Prod.fst ∨ ∃ p ∈ leafPaths t, x = cur ++ p := by
  intro t
  induction t with
  | leaf ch f =>
    intro cur st x hx
    simp only [makeCodes] at hx
    rcases dictSet_keys st.2 cur ch x hx with hmem | heq
    · exact Or.inl hmem
    · exact Or.inr ⟨[], by simp [leafPaths], by simpa using heq⟩
  | node f l r ihl ihr =>
    intro cur st x hx
    simp only [makeCodes] at hx
    rcases ihr (cur ++ ['1']) _ x hx with hx1 | ⟨p, hp, rfl⟩
    · rcases ihl (cur ++ ['0']) st x hx1 with hx2 | ⟨p, hp, rfl⟩
      · exact Or.inl hx2
      · exact Or.inr ⟨'0' :: p, by
          simp only [leafPaths, List.mem_append, List.mem_map]
          exact Or.inl ⟨p, hp, rfl⟩, by simp⟩
    · exact Or.inr ⟨'1' :: p, by
        simp only [leafPaths, List.mem_append, List.mem_map]
        exact Or.inr ⟨p, hp, rfl⟩, by simp⟩

/-- C6: in the table shipped by a single `HuffmanCoding.compress` on a
fresh instance, no code is a prefix of another distinct code. -/
theorem huffman_prefix_free (data : List Nat) :
    ∀ p1 ∈ (huffCompress data).2, ∀ p2 ∈ (huffCompress data).2,
      p1.1 ≠ p2.1 → ¬ p1.1 <+: p2.1 := by
  intro p1 hp1 p2 hp2 hne hpre
  by_cases hd : data = []
  · subst hd
    simp [huffCompress, huffCompressSt] at hp1
  · cases hpop : heappop hlt (mergeNodes (makeHeap [] (makeFrequency data)))
      with
    | none =>
      have hrev : (huffCompress data).2 = [] := by
        unfold huffCompress huffCompressSt
        simp only [if_neg hd]
        rw [hpop]
      rw [hrev] at hp1
      simp at hp1
    | some pr =>
      obtain ⟨root, heap3⟩ := pr
      have hrev : (huffCompress data).2
          = (makeCodes root [] ([], [])).2 := by
        unfold huffCompress huffCompressSt
        simp only [if_neg hd]
        rw [hpop]
      rw [hrev] at hp1 hp2
      have hk1 := makeCodes_rev_keys root [] ([], []) p1.1
        (List.mem_map_of_mem Prod.fst hp1)
      have hk2 := makeCodes_rev_keys root [] ([], []) p2.1
        (List.mem_map_of_mem Prod.fst hp2)
      rcases hk1 with h1 | ⟨q1, hq1, hxq1⟩
      · simp at h1
      rcases hk2 with h2 | ⟨q2, hq2, hxq2⟩
      · simp at h2
      simp only [List.nil_append] at hxq1 hxq2
      rw [hxq1, hxq2] at hpre
      exact hne (by
        rw [hxq1, hxq2, leafPaths_prefix_eq root q1 q2 hq1 hq2 hpre])

/-- Witness for `huffman_prefix_free` at `b"AB"`, whose emitted table maps
`"0"` to `A` and `"1"` to `B`. -/
theorem huffman_prefix_free_witness :
    (['0'], 65) ∈ (huffCompress [65, 66]).2 ∧
      (['1'], 66) ∈ (huffCompress [65, 66]).2 ∧
      (['0'] : List Char) ≠ ['1'] ∧ ¬ (['0'] : List Char) <+: ['1'] :=
  ⟨by decide, by decide, by decide,
    huffman_prefix_free [65, 66] (['0'], 65) (by decide) (['1'], 66)
      (by decide) (by decide)⟩
